import Mathlib

/-!
Verification development for the local-storage extraction library
(`src/storage.ts`).  The core of the library is:

* `keyFromUrl` — derives the binary store key `_<scheme>://<host>` for a
  URL's origin, optionally followed by a separator (`"\u0000\u0001"` by
  default) and an application key;
* `unpackValue` — decodes a raw stored value by dropping its one-byte
  framing marker (the source drops the first *character* of the UTF-8
  decoding);
* `read` / `readAll` — point lookup and bounded range scan over the
  store, with deterministic release of the store handle and iterator.

The TypeScript source is embedded shallowly: strings are Lean `String`s
(manipulated through their `List Char` data), byte sequences are
`List Nat` with every element `< 256`, and the external collaborators
(Node's legacy `url.parse`, `Buffer` UTF-8 codec, the LevelDB store) are
modelled by explicit Lean functions documented below.
-/

namespace Chromagnon

instance {e a : Type} [DecidableEq e] [DecidableEq a] :
    DecidableEq (Except e a) := fun x y =>
  match x, y with
  | .ok v, .ok w => if h : v = w then isTrue (by rw [h]) else isFalse (by simp [h])
  | .error v, .error w =>
    if h : v = w then isTrue (by rw [h]) else isFalse (by simp [h])
  | .ok _, .error _ => isFalse (by simp)
  | .error _, .ok _ => isFalse (by simp)

/-- Error kinds of the reader, as named by the library's documentation:
invalid URL input, point lookup miss, store open failure, malformed
stored data. -/
inductive StorageError where
  | invalidInput
  | notFound
  | storeUnavailable
  | malformedValue
  deriving DecidableEq, Repr

/-- Model of JavaScript `String.prototype.toLowerCase` restricted to the
ASCII range (the only range exercised by scheme/host normalisation in
Node's legacy URL parser): maps `A`–`Z` to `a`–`z` and fixes every other
character. -/
def lowerChar (c : Char) : Char :=
  if 65 ≤ c.toNat ∧ c.toNat ≤ 90 then Char.ofNat (c.toNat + 32) else c

/-- Characters allowed in a URL scheme by Node's legacy parser
(`/^[a-z0-9.+-]+:/i`): ASCII letters, digits, `+`, `-`, `.`. -/
def protoChar (c : Char) : Bool :=
  decide ((97 ≤ c.toNat ∧ c.toNat ≤ 122) ∨ (65 ≤ c.toNat ∧ c.toNat ≤ 90) ∨
    (48 ≤ c.toNat ∧ c.toNat ≤ 57) ∨ c.toNat = 43 ∨ c.toNat = 45 ∨ c.toNat = 46)

/-- Characters the host model keeps: ASCII letters, digits, `.`, `-`,
`_`, `+` (Node's hostname-part pattern) and `:` (the host field includes
the port). -/
def hostChar (c : Char) : Bool :=
  decide ((97 ≤ c.toNat ∧ c.toNat ≤ 122) ∨ (65 ≤ c.toNat ∧ c.toNat ≤ 90) ∨
    (48 ≤ c.toNat ∧ c.toNat ≤ 57) ∨ c.toNat = 43 ∨ c.toNat = 45 ∨ c.toNat = 46 ∨
    c.toNat = 95 ∨ c.toNat = 58)

/-- Characters that terminate the host portion of a URL in Node's legacy
parser: `/`, `?`, `#`. -/
def hostEndChar (c : Char) : Bool :=
  decide (c.toNat = 47 ∨ c.toNat = 63 ∨ c.toNat = 35)

/-- The two-character host/key separator used by the store
(`hostKeySeparator` in the source): `"\u0000\u0001"`. -/
def hostKeySeparator : String := "\u0000\u0001"

/-- The default protocol used when the parsed URL has none: `"https:"`
(Node's `protocol` field includes the trailing colon). -/
def httpsProto : List Char := "https:".data

/-- Host extraction from the portion of a URL following `scheme://`, as
in Node's legacy parser: the raw host runs to the first `/ ? #`,
userinfo up to the last `@` is dropped, and the result is lowercased.
Node's per-label hostname validation is simplified to truncation at the
first character outside `hostChar`. -/
def hostFromRest (afterSlashes : List Char) : List Char :=
  let hostPart := afterSlashes.takeWhile fun c => !hostEndChar c
  let noAuth := (hostPart.reverse.takeWhile fun c => !(c == '@')).reverse
  (noAuth.map lowerChar).takeWhile hostChar

/-- The part of URL parsing after the scheme's colon: a host exists only
when the colon is followed by `//`. -/
def parseTail (protocol : List Char) (afterColon : List Char) :
    Option (List Char) × Option (List Char) :=
  if afterColon.take 2 = ['/', '/'] then
    (some protocol, some (hostFromRest (afterColon.drop 2)))
  else (some protocol, none)

/-- Model of Node's legacy `url.parse` (the external `url` module),
restricted to the two fields the library reads, `protocol` and `host`:
the scheme is a nonempty run of `protoChar`s terminated by `:` and is
lowercased (colon included); the remainder is handled by
`parseTail`/`hostFromRest`.  A URL with no scheme has no host (the
library parses with `slashesDenoteHost` left false). -/
def parseUrlChars (cs : List Char) : Option (List Char) × Option (List Char) :=
  let run := cs.takeWhile protoChar
  let rest := cs.dropWhile protoChar
  if run.isEmpty then (none, none)
  else if rest.take 1 = [':'] then
    parseTail (run.map lowerChar ++ [':']) (rest.drop 1)
  else (none, none)

/-- UTF-8 encoding of a single Unicode scalar value, as performed by
`Buffer.from(string)`. -/
def utf8Bytes (c : Char) : List Nat :=
  let n := c.toNat
  if n < 0x80 then [n]
  else if n < 0x800 then [0xC0 + n / 64, 0x80 + n % 64]
  else if n < 0x10000 then [0xE0 + n / 4096, 0x80 + n / 64 % 64, 0x80 + n % 64]
  else [0xF0 + n / 262144, 0x80 + n / 4096 % 64, 0x80 + n / 64 % 64, 0x80 + n % 64]

/-- UTF-8 encoding of a character sequence (model of
`Buffer.from(string)`). -/
def strBytes (l : List Char) : List Nat :=
  (l.map utf8Bytes).flatten

/-- The Unicode replacement character `U+FFFD` emitted by lenient UTF-8
decoding. -/
def repl : Char := Char.ofNat 0xFFFD

/-- Whether a byte is a UTF-8 continuation byte (`0x80`–`0xBF`). -/
def contByte (b : Nat) : Bool := decide (0x80 ≤ b ∧ b < 0xC0)

/-- Range check for the second byte of a three-byte sequence, which
depends on the lead byte (excluding overlong encodings and
surrogates). -/
def cont3Ok (b b2 : Nat) : Bool :=
  if b = 0xE0 then decide (0xA0 ≤ b2 ∧ b2 < 0xC0)
  else if b = 0xED then decide (0x80 ≤ b2 ∧ b2 < 0xA0)
  else contByte b2

/-- Range check for the second byte of a four-byte sequence, which
depends on the lead byte (excluding overlong encodings and values above
`U+10FFFF`). -/
def cont4Ok (b b2 : Nat) : Bool :=
  if b = 0xF0 then decide (0x90 ≤ b2 ∧ b2 < 0xC0)
  else if b = 0xF4 then decide (0x80 ≤ b2 ∧ b2 < 0x90)
  else contByte b2

/-- One step of lenient UTF-8 decoding (model of `Buffer.toString`): on
a valid sequence return the decoded scalar and the number of bytes
consumed; on a malformed prefix return `U+FFFD` and consume one byte
(resynchronisation is simplified to one byte per replacement, which
preserves the properties relied on below: valid encodings round-trip,
and scalars below `U+0080` arise only from the identical single
byte). -/
def utf8DecodeStep : List Nat → Option (Char × Nat)
  | [] => none
  | b :: rest =>
    if b < 0x80 then some (Char.ofNat b, 1)
    else if b < 0xC2 then some (repl, 1)
    else if b < 0xE0 then
      match rest with
      | b2 :: _ =>
        if contByte b2 then some (Char.ofNat ((b - 0xC0) * 64 + (b2 - 0x80)), 2)
        else some (repl, 1)
      | [] => some (repl, 1)
    else if b < 0xF0 then
      match rest with
      | b2 :: b3 :: _ =>
        if cont3Ok b b2 && contByte b3 then
          some (Char.ofNat ((b - 0xE0) * 4096 + (b2 - 0x80) * 64 + (b3 - 0x80)), 3)
        else some (repl, 1)
      | _ => some (repl, 1)
    else if b < 0xF5 then
      match rest with
      | b2 :: b3 :: b4 :: _ =>
        if cont4Ok b b2 && contByte b3 && contByte b4 then
          some (Char.ofNat
            ((b - 0xF0) * 262144 + (b2 - 0x80) * 4096 + (b3 - 0x80) * 64 + (b4 - 0x80)), 4)
        else some (repl, 1)
      | _ => some (repl, 1)
    else some (repl, 1)

theorem utf8DecodeStep_pos {l : List Nat} {c : Char} {k : Nat}
    (h : utf8DecodeStep l = some (c, k)) : 1 ≤ k ∧ l ≠ [] := by
  match l with
  | [] => simp [utf8DecodeStep] at h
  | b :: rest =>
    refine ⟨?_, by simp⟩
    simp only [utf8DecodeStep] at h
    repeat' split at h
    all_goals
      simp only [Option.some.injEq, Prod.mk.injEq] at h
      omega

/-- Fuel-indexed driver of the lenient UTF-8 decoder; each step consumes
at least one byte, so fuel equal to the input length always suffices. -/
def utf8DecodeAux : Nat → List Nat → List Char
  | 0, _ => []
  | fuel + 1, l =>
    match utf8DecodeStep l with
    | none => []
    | some (c, k) => c :: utf8DecodeAux fuel (l.drop k)

/-- Lenient UTF-8 decoding of a byte sequence into text, the model of
`Buffer.prototype.toString` used by `unpackValue` and the scan's key
decoding. -/
def utf8Decode (l : List Nat) : List Char :=
  utf8DecodeAux l.length l

theorem utf8DecodeAux_congr : ∀ (f1 f2 : Nat) (l : List Nat),
    l.length ≤ f1 → l.length ≤ f2 → utf8DecodeAux f1 l = utf8DecodeAux f2 l := by
  intro f1
  induction f1 with
  | zero =>
    intro f2 l h1 h2
    have hnil : l = [] := List.eq_nil_of_length_eq_zero (Nat.le_zero.1 h1)
    subst hnil
    cases f2 with
    | zero => rfl
    | succ f2' => rfl
  | succ f1' ih =>
    intro f2 l h1 h2
    cases f2 with
    | zero =>
      have hnil : l = [] := List.eq_nil_of_length_eq_zero (Nat.le_zero.1 h2)
      subst hnil
      rfl
    | succ f2' =>
      simp only [utf8DecodeAux]
      cases hs : utf8DecodeStep l with
      | none => rfl
      | some ck =>
        obtain ⟨c, k⟩ := ck
        have hpos := utf8DecodeStep_pos hs
        have hlpos : 1 ≤ l.length := by
          cases l with
          | nil => exact absurd rfl hpos.2
          | cons x xs => simp
        have hd1 : (l.drop k).length ≤ f1' := by
          rw [List.length_drop]
          omega
        have hd2 : (l.drop k).length ≤ f2' := by
          rw [List.length_drop]
          omega
        show c :: utf8DecodeAux f1' (l.drop k) = c :: utf8DecodeAux f2' (l.drop k)
        rw [ih f2' (l.drop k) hd1 hd2]

/-- The optional `<separator><key>` suffix built by `keyFromUrl`: a
falsy — absent or empty — application key yields no suffix. -/
def keySuffix (key : Option String) (separator : String) : List Char :=
  match key with
  | some k => if k.data.isEmpty then [] else separator.data ++ k.data
  | none => []

/-- Embedding of `keyFromUrl(url, key?, separator = hostKeySeparator)`
from `src/storage.ts`: build the optional `<separator><key>` suffix,
parse the URL, fail if there is no host, default the protocol to
`https:`, and return the bytes of `` `_${protocol}//${host}${suffix}`
``.  The source throws `Error("host is required")`; the spec names this
failure `InvalidInput`. -/
def keyFromUrl (url : String) (key : Option String) (separator : String) :
    Except StorageError (List Nat) :=
  let suffix : List Char := keySuffix key separator
  let parsed := parseUrlChars url.data
  match parsed.2 with
  | none => .error .invalidInput
  | some host =>
    if host.isEmpty then .error .invalidInput
    else
      let protocol := parsed.1.getD httpsProto
      .ok (strBytes ('_' :: protocol ++ '/' :: '/' :: host ++ suffix))

/-- Embedding of `unpackValue(v)` from `src/storage.ts`:
`v.toString().slice(1)` — decode the raw bytes as UTF-8 and drop the
first *character* of the result (the framing marker, observed as
`0x01`).  Note the source never fails: an empty buffer yields the empty
string. -/
def unpackValue (v : List Nat) : String :=
  String.mk ((utf8Decode v).drop 1)

/-- Split of a character sequence on the two-character separator
`c0, c1`, the model of JavaScript
`String.prototype.split(hostKeySeparator)`: left-to-right,
non-overlapping matches. -/
def split2 (c0 c1 : Char) : List Char → List (List Char)
  | [] => [[]]
  | [a] => [[a]]
  | a :: b :: rest =>
    if a = c0 ∧ b = c1 then [] :: split2 c0 c1 rest
    else
      match split2 c0 c1 (b :: rest) with
      | s :: ss => (a :: s) :: ss
      | [] => [[a]]

/-- Embedding of the key decoding in `readAll`
(`const [ , actualKey ] = key.toString().split(hostKeySeparator)`):
decode the raw store key as UTF-8, split it on the separator, and take
the second component — `none` models the `undefined` produced by the
destructuring when the separator is absent. -/
def decodeStoredKey (raw : List Nat) : Option String :=
  ((split2 '\u0000' '\u0001' (utf8Decode raw)).map String.mk).get? 1

/-- Lexicographic byte-wise comparison of store keys, the key order of
the underlying LevelDB store (shorter prefixes sort first). -/
def bytesLe : List Nat → List Nat → Bool
  | [], _ => true
  | _ :: _, [] => false
  | a :: as, b :: bs =>
    if a < b then true
    else if b < a then false
    else bytesLe as bs

/-- A store snapshot: the association of raw keys to raw values held by
the on-disk LevelDB store (an external collaborator; the library never
writes it). -/
def Store := List (List Nat × List Nat)

/-- Point query against a store snapshot, the model of
`levelup.get`. -/
def dbGet (store : Store) (k : List Nat) : Option (List Nat) :=
  (store.find? fun e => e.1 == k).map (·.2)

/-- The string `"\u0001"` used by `readAll` to build the scan's upper
bound (`keyFromUrl(url, "\u0001", "")`). -/
def sohStr : String := "\u0001"

/-- Embedding of `LocalStorageExtractor.read(url, key)`: derive the
entry key with the default separator, fetch the value for exactly that
key (a miss is levelup's `NotFoundError`, which the method does not
catch), and decode it with `unpackValue`. -/
def read (store : Store) (url key : String) : Except StorageError String :=
  match keyFromUrl url (some key) hostKeySeparator with
  | .error e => .error e
  | .ok k =>
    match dbGet store k with
    | none => .error .notFound
    | some v => .ok (unpackValue v)

/-- Embedding of `LocalStorageExtractor.readAll(url)`: compute the scan
bounds `start = keyFromUrl(url)` and `end = keyFromUrl(url, "\u0001",
"")`, iterate the store over `gte: start, lte: end` (both inclusive),
and yield for each raw entry the separator-split key and the unpacked
value.  The lazily produced sequence is embedded as the list of yielded
pairs. -/
def readAll (store : Store) (url : String) :
    Except StorageError (List (Option String × String)) :=
  match keyFromUrl url none hostKeySeparator, keyFromUrl url (some sohStr) "" with
  | .ok start, .ok stop =>
    .ok (((store.filter fun e => bytesLe start e.1 && bytesLe e.1 stop).map
      fun e => (decodeStoredKey e.1, unpackValue e.2)))
  | .error e, _ => .error e
  | .ok _, .error e => .error e

/-- The `(scheme, host)` origin a URL parses to, when it has a
non-empty host: the parsed protocol (defaulted to `https:`) together
with the parsed host. -/
def originPair (url : String) : Option (List Char × List Char) :=
  match parseUrlChars url.data with
  | (p, some h) => if h.isEmpty then none else some (p.getD httpsProto, h)
  | (_, none) => none

section Traces

/-- Observable resource events of one reader operation: acquiring and
releasing the store handle, creating, advancing and releasing the scan
iterator, yielding one record to the consumer, and surfacing the final
result or error to the caller. -/
inductive Ev where
  | dbOpen
  | dbQuery
  | dbClose
  | iterCreate
  | iterNext
  | iterEnd
  | yieldItem
  | surface
  deriving DecidableEq, Repr

/-- Call trace of `read(url, key)`, following the source's control flow:
`openDb` first (a rejected open surfaces with no handle to release);
then inside `try`, `keyFromUrl` (which may throw) and `db.get` (which
may resolve or reject); `finally` calls `db.close()` on every one of
those paths before the result or error is surfaced. -/
def readTrace (openOk keyOk : Bool) : List Ev :=
  if openOk then
    if keyOk then [.dbOpen, .dbQuery, .dbClose, .surface]
    else [.dbOpen, .dbClose, .surface]
  else [.surface]

/-- Events of the streaming phase of `readAll` plus its cleanup, for a
scan over `items` remaining records, a consumer that abandons the
sequence after `consumed` more yields (`none` = consumes to
exhaustion), and an iterator error after `errAt` more `next` calls
(`none` = no error).  Early abandonment resumes the generators with a
return completion, running the `finally` blocks inside-out:
`asyncIterable` awaits `iterator.end`, then `readAll` calls
`db.close()`; an iterator error and natural exhaustion take the same
cleanup path. -/
def scanEvents : Nat → Option Nat → Option Nat → List Ev
  | items, consumed, errAt =>
    if errAt = some 0 then [.iterNext, .iterEnd, .dbClose, .surface]
    else if consumed = some 0 then [.iterEnd, .dbClose, .surface]
    else
      match items with
      | 0 => [.iterNext, .iterEnd, .dbClose, .surface]
      | items' + 1 =>
        .iterNext :: .yieldItem ::
          scanEvents items' (consumed.map (· - 1)) (errAt.map (· - 1))

/-- Call trace of `readAll(url)`: the scan bounds are derived before the
store is opened, so an invalid URL surfaces with no handle acquired; a
failed open likewise surfaces nothing to release; otherwise the iterator
is created inside `try` and the streaming phase of `scanEvents` runs
with its guaranteed cleanup. -/
def readAllTrace (keyOk openOk : Bool) (items : Nat)
    (consumed errAt : Option Nat) : List Ev :=
  if keyOk then
    if openOk then .dbOpen :: .iterCreate :: scanEvents items consumed errAt
    else [.surface]
  else [.surface]

end Traces

section CharLemmas

theorem toNat_ofNat_valid {n : Nat} (h : n.isValidChar) :
    (Char.ofNat n).toNat = n := by
  simp only [Char.ofNat, dif_pos h, Char.ofNatAux, Char.toNat]
  simp [UInt32.toNat]

theorem char_toNat_lt (c : Char) : c.toNat < 0x110000 := by
  have := c.valid
  rcases this with h | h
  · exact Nat.lt_trans h (by norm_num)
  · exact h.2

theorem char_toNat_not_surrogate (c : Char) :
    c.toNat < 0xD800 ∨ 0xDFFF < c.toNat := by
  rcases c.valid with h | h
  · exact Or.inl h
  · exact Or.inr h.1

theorem char_eq_of_toNat_eq {c d : Char} (h : c.toNat = d.toNat) : c = d := by
  have : Char.ofNat c.toNat = Char.ofNat d.toNat := by rw [h]
  simpa [Char.ofNat_toNat] using this

theorem lowerChar_toNat (c : Char) :
    (lowerChar c).toNat =
      if 65 ≤ c.toNat ∧ c.toNat ≤ 90 then c.toNat + 32 else c.toNat := by
  unfold lowerChar
  by_cases h : 65 ≤ c.toNat ∧ c.toNat ≤ 90
  · rw [if_pos h, if_pos h, toNat_ofNat_valid (Or.inl (by omega))]
  · rw [if_neg h, if_neg h]

theorem lowerChar_of_not_upper {c : Char} (h : ¬(65 ≤ c.toNat ∧ c.toNat ≤ 90)) :
    lowerChar c = c := by
  unfold lowerChar
  rw [if_neg h]

theorem lowerChar_idem (c : Char) : lowerChar (lowerChar c) = lowerChar c := by
  apply lowerChar_of_not_upper
  rw [lowerChar_toNat]
  split <;> omega

theorem protoChar_lowerChar (c : Char) : protoChar (lowerChar c) = protoChar c := by
  simp only [protoChar, lowerChar_toNat, decide_eq_decide]
  split <;> (constructor <;> intro <;> omega)

theorem hostChar_lowerChar (c : Char) : hostChar (lowerChar c) = hostChar c := by
  simp only [hostChar, lowerChar_toNat, decide_eq_decide]
  split <;> (constructor <;> intro <;> omega)

theorem hostEndChar_lowerChar (c : Char) :
    hostEndChar (lowerChar c) = hostEndChar c := by
  simp only [hostEndChar, lowerChar_toNat, decide_eq_decide]
  split <;> (constructor <;> intro <;> omega)

theorem lowerChar_eq_iff_of_fixed {c : Char} {d : Char}
    (hd : d.toNat < 65) : lowerChar c = d ↔ c = d := by
  constructor
  · intro h
    have ht : (lowerChar c).toNat = d.toNat := by rw [h]
    rw [lowerChar_toNat] at ht
    split at ht
    · omega
    · exact char_eq_of_toNat_eq ht
  · intro h
    subst h
    exact lowerChar_of_not_upper (by omega)

theorem protoChar_toNat {c : Char} (h : protoChar c = true) :
    2 ≤ c.toNat ∧ c.toNat < 128 := by
  simp only [protoChar, decide_eq_true_eq] at h
  omega

theorem hostChar_toNat {c : Char} (h : hostChar c = true) :
    2 ≤ c.toNat ∧ c.toNat < 128 := by
  simp only [hostChar, decide_eq_true_eq] at h
  omega

theorem protoChar_ne_colon {c : Char} (h : protoChar c = true) : c ≠ ':' := by
  intro hc
  subst hc
  simp [protoChar] at h

end CharLemmas

section Utf8Lemmas

theorem utf8Bytes_ascii {c : Char} (h : c.toNat < 128) : utf8Bytes c = [c.toNat] := by
  simp [utf8Bytes, h]

theorem strBytes_nil : strBytes [] = [] := rfl

theorem strBytes_cons (c : Char) (l : List Char) :
    strBytes (c :: l) = utf8Bytes c ++ strBytes l := by
  simp [strBytes]

theorem strBytes_append (a b : List Char) :
    strBytes (a ++ b) = strBytes a ++ strBytes b := by
  simp [strBytes]

theorem strBytes_ascii {l : List Char} (h : ∀ c ∈ l, c.toNat < 128) :
    strBytes l = l.map Char.toNat := by
  induction l with
  | nil => rfl
  | cons c cs ih =>
    rw [strBytes_cons, utf8Bytes_ascii (h c (by simp)), ih fun d hd => h d (by simp [hd])]
    rfl

theorem utf8DecodeStep_encode (c : Char) (rest : List Nat) :
    utf8DecodeStep (utf8Bytes c ++ rest) = some (c, (utf8Bytes c).length) := by
  have hlt : c.toNat < 0x110000 := char_toNat_lt c
  have hsur : c.toNat < 0xD800 ∨ 0xDFFF < c.toNat := char_toNat_not_surrogate c
  have hofc : Char.ofNat c.toNat = c := Char.ofNat_toNat c
  by_cases h1 : c.toNat < 0x80
  · rw [utf8Bytes_ascii h1]
    simp only [List.cons_append, List.nil_append, List.length_cons, List.length_nil]
    simp only [utf8DecodeStep, if_pos h1, hofc]
  · by_cases h2 : c.toNat < 0x800
    · have hb : utf8Bytes c = [0xC0 + c.toNat / 64, 0x80 + c.toNat % 64] := by
        simp [utf8Bytes, h1, h2]
      rw [hb]
      simp only [List.cons_append, List.nil_append, List.length_cons, List.length_nil]
      simp only [utf8DecodeStep]
      rw [if_neg (by omega), if_neg (by omega), if_pos (by omega)]
      rw [if_pos (show contByte (0x80 + c.toNat % 64) = true by
        simp only [contByte, decide_eq_true_eq]; omega)]
      have hval : (0xC0 + c.toNat / 64 - 0xC0) * 64 + (0x80 + c.toNat % 64 - 0x80)
          = c.toNat := by omega
      rw [hval, hofc]
    · by_cases h3 : c.toNat < 0x10000
      · have hb : utf8Bytes c = [0xE0 + c.toNat / 4096,
            0x80 + c.toNat / 64 % 64, 0x80 + c.toNat % 64] := by
          simp [utf8Bytes, h1, h2, h3]
        rw [hb]
        simp only [List.cons_append, List.nil_append, List.length_cons, List.length_nil]
        simp only [utf8DecodeStep]
        rw [if_neg (by omega), if_neg (by omega), if_neg (by omega),
          if_pos (by omega)]
        have hc3 : cont3Ok (0xE0 + c.toNat / 4096) (0x80 + c.toNat / 64 % 64) = true := by
          simp only [cont3Ok, contByte]
          split
          · next he =>
            have h0 : c.toNat / 4096 = 0 := by omega
            simp only [decide_eq_true_eq]
            omega
          · split
            · next hne he =>
              have h13 : c.toNat / 4096 = 13 := by omega
              have hlo : c.toNat < 0xD800 := by
                rcases hsur with h | h
                · exact h
                · omega
              simp only [decide_eq_true_eq]
              omega
            · simp only [decide_eq_true_eq]
              omega
        have hcond : (cont3Ok (0xE0 + c.toNat / 4096) (0x80 + c.toNat / 64 % 64)
            && contByte (0x80 + c.toNat % 64)) = true := by
          rw [Bool.and_eq_true]
          exact ⟨hc3, by simp only [contByte, decide_eq_true_eq]; omega⟩
        rw [if_pos hcond]
        have hval : (0xE0 + c.toNat / 4096 - 0xE0) * 4096
            + (0x80 + c.toNat / 64 % 64 - 0x80) * 64
            + (0x80 + c.toNat % 64 - 0x80) = c.toNat := by omega
        rw [hval, hofc]
      · have hb : utf8Bytes c = [0xF0 + c.toNat / 262144,
            0x80 + c.toNat / 4096 % 64, 0x80 + c.toNat / 64 % 64,
            0x80 + c.toNat % 64] := by
          simp [utf8Bytes, h1, h2, h3]
        rw [hb]
        simp only [List.cons_append, List.nil_append, List.length_cons, List.length_nil]
        simp only [utf8DecodeStep]
        rw [if_neg (by omega), if_neg (by omega), if_neg (by omega),
          if_neg (by omega), if_pos (by omega)]
        have hc4 : cont4Ok (0xF0 + c.toNat / 262144) (0x80 + c.toNat / 4096 % 64) = true := by
          simp only [cont4Ok, contByte]
          split
          · next he =>
            have h0 : c.toNat / 262144 = 0 := by omega
            simp only [decide_eq_true_eq]
            omega
          · split
            · next hne he =>
              have h4 : c.toNat / 262144 = 4 := by omega
              simp only [decide_eq_true_eq]
              omega
            · simp only [decide_eq_true_eq]
              omega
        have hcond : (cont4Ok (0xF0 + c.toNat / 262144) (0x80 + c.toNat / 4096 % 64)
            && contByte (0x80 + c.toNat / 64 % 64)
            && contByte (0x80 + c.toNat % 64)) = true := by
          simp only [Bool.and_eq_true]
          refine ⟨⟨hc4, ?_⟩, ?_⟩ <;>
            (simp only [contByte, decide_eq_true_eq]; omega)
        rw [if_pos hcond]
        have hval : (0xF0 + c.toNat / 262144 - 0xF0) * 262144
            + (0x80 + c.toNat / 4096 % 64 - 0x80) * 4096
            + (0x80 + c.toNat / 64 % 64 - 0x80) * 64
            + (0x80 + c.toNat % 64 - 0x80) = c.toNat := by omega
        rw [hval, hofc]

theorem utf8Decode_nil : utf8Decode [] = [] := rfl

theorem utf8Decode_step_none {l : List Nat} (h : utf8DecodeStep l = none) :
    utf8Decode l = [] := by
  unfold utf8Decode
  cases hn : l.length with
  | zero => rfl
  | succ m => simp only [utf8DecodeAux, h]

theorem utf8Decode_step_some {l : List Nat} {c : Char} {k : Nat}
    (h : utf8DecodeStep l = some (c, k)) :
    utf8Decode l = c :: utf8Decode (l.drop k) := by
  have hpos := utf8DecodeStep_pos h
  have hlpos : 1 ≤ l.length := by
    cases l with
    | nil => exact absurd rfl hpos.2
    | cons x xs => simp
  obtain ⟨m, hm⟩ : ∃ m, l.length = m + 1 := ⟨l.length - 1, by omega⟩
  unfold utf8Decode
  rw [hm]
  simp only [utf8DecodeAux, h]
  rw [utf8DecodeAux_congr m ((l.drop k).length) (l.drop k)
    (by rw [List.length_drop]; omega) le_rfl]

theorem utf8Decode_encode_cons (c : Char) (rest : List Nat) :
    utf8Decode (utf8Bytes c ++ rest) = c :: utf8Decode rest := by
  rw [utf8Decode_step_some (utf8DecodeStep_encode c rest)]
  rw [List.drop_left]

theorem utf8Decode_strBytes_append (l : List Char) (rest : List Nat) :
    utf8Decode (strBytes l ++ rest) = l ++ utf8Decode rest := by
  induction l with
  | nil => simp [strBytes_nil]
  | cons c cs ih =>
    rw [strBytes_cons, List.append_assoc, utf8Decode_encode_cons, ih]
    rfl

theorem utf8Decode_strBytes (l : List Char) : utf8Decode (strBytes l) = l := by
  have h := utf8Decode_strBytes_append l []
  simpa [utf8Decode_nil] using h

end Utf8Lemmas

section ParserLemmas

theorem lowerChar_beq_fixed (c : Char) {d : Char} (hd : d.toNat < 65) :
    (lowerChar c == d) = (c == d) := by
  by_cases h : c = d
  · subst h
    rw [lowerChar_of_not_upper (by omega)]
  · have h2 : lowerChar c ≠ d := fun hh => h ((lowerChar_eq_iff_of_fixed hd).1 hh)
    simp [h, h2]

theorem parseUrl_host_chars {cs : List Char} {p : Option (List Char)} {h : List Char}
    (hp : parseUrlChars cs = (p, some h)) : ∀ c ∈ h, hostChar c = true := by
  simp only [parseUrlChars, parseTail, hostFromRest] at hp
  split at hp
  · rw [Prod.mk.injEq] at hp
    exact absurd hp.2 (by simp)
  · split at hp
    · split at hp
      · rw [Prod.mk.injEq] at hp
        obtain ⟨-, hh⟩ := hp
        rw [Option.some.injEq] at hh
        subst hh
        intro c hc
        exact List.all_eq_true.1 List.all_takeWhile c hc
      · rw [Prod.mk.injEq] at hp
        exact absurd hp.2 (by simp)
    · rw [Prod.mk.injEq] at hp
      exact absurd hp.2 (by simp)

theorem parseUrl_proto_shape {cs : List Char} {p : List Char} {h : Option (List Char)}
    (hp : parseUrlChars cs = (some p, h)) :
    ∃ sch, p = sch ++ [':'] ∧ ∀ c ∈ sch, protoChar c = true := by
  simp only [parseUrlChars, parseTail] at hp
  have hmem : ∀ c ∈ (cs.takeWhile protoChar).map lowerChar, protoChar c = true := by
    intro c hc
    rw [List.mem_map] at hc
    obtain ⟨c', hc', rfl⟩ := hc
    rw [protoChar_lowerChar]
    exact List.all_eq_true.1 List.all_takeWhile c' hc'
  split at hp
  · rw [Prod.mk.injEq] at hp
    exact absurd hp.1 (by simp)
  · split at hp
    · split at hp
      all_goals
        rw [Prod.mk.injEq] at hp
        obtain ⟨hpp, -⟩ := hp
        rw [Option.some.injEq] at hpp
        exact ⟨(cs.takeWhile protoChar).map lowerChar, hpp.symm, hmem⟩
    · rw [Prod.mk.injEq] at hp
      exact absurd hp.1 (by simp)

theorem parseUrl_proto_of_host {cs : List Char} {p : Option (List Char)}
    {h : List Char} (hp : parseUrlChars cs = (p, some h)) :
    ∃ pl, p = some pl := by
  simp only [parseUrlChars, parseTail] at hp
  split at hp
  · rw [Prod.mk.injEq] at hp
    exact absurd hp.2 (by simp)
  · split at hp
    · split at hp
      · rw [Prod.mk.injEq] at hp
        exact ⟨_, hp.1.symm⟩
      · rw [Prod.mk.injEq] at hp
        exact absurd hp.2 (by simp)
    · rw [Prod.mk.injEq] at hp
      exact absurd hp.2 (by simp)

theorem takeWhile_map_lower_of_inv {p : Char → Bool}
    (hp : ∀ c, p (lowerChar c) = p c) (l : List Char) :
    (l.map lowerChar).takeWhile p = (l.takeWhile p).map lowerChar := by
  rw [List.takeWhile_map, show p ∘ lowerChar = p from funext hp]

theorem revTakeRev_lower {p : Char → Bool} (hp : ∀ c, p (lowerChar c) = p c)
    (l : List Char) :
    ((l.map lowerChar).reverse.takeWhile p).reverse
      = ((l.reverse.takeWhile p).reverse).map lowerChar := by
  rw [← List.map_reverse, takeWhile_map_lower_of_inv hp, ← List.map_reverse]

theorem hostFromRest_lower (l : List Char) :
    hostFromRest (l.map lowerChar) = hostFromRest l := by
  simp only [hostFromRest]
  rw [takeWhile_map_lower_of_inv (fun c => by rw [hostEndChar_lowerChar]) l]
  rw [revTakeRev_lower (fun c => by
    rw [lowerChar_beq_fixed c (show ('@' : Char).toNat < 65 by decide)]) _]
  rw [List.map_map, show lowerChar ∘ lowerChar = lowerChar from funext lowerChar_idem]

theorem parseTail_lower (protocol : List Char) (l : List Char) :
    parseTail protocol (l.map lowerChar) = parseTail protocol l := by
  simp only [parseTail]
  have hcond : (l.map lowerChar).take 2 = ['/', '/'] ↔ l.take 2 = ['/', '/'] := by
    rw [← List.map_take]
    generalize l.take 2 = t
    rcases t with - | ⟨a, - | ⟨b, t'⟩⟩ <;>
      simp [lowerChar_eq_iff_of_fixed (show ('/' : Char).toNat < 65 by decide)]
  by_cases hc : l.take 2 = ['/', '/']
  · rw [if_pos (hcond.2 hc), if_pos hc, ← List.map_drop, hostFromRest_lower]
  · rw [if_neg (fun hh => hc (hcond.1 hh)), if_neg hc]

theorem parseUrl_lower (cs : List Char) :
    parseUrlChars (cs.map lowerChar) = parseUrlChars cs := by
  simp only [parseUrlChars]
  rw [List.takeWhile_map, List.dropWhile_map,
    show protoChar ∘ lowerChar = protoChar from funext protoChar_lowerChar]
  have hempty : ((cs.takeWhile protoChar).map lowerChar).isEmpty
      = (cs.takeWhile protoChar).isEmpty := by
    rcases cs.takeWhile protoChar with - | ⟨a, t⟩ <;> simp
  rw [hempty]
  by_cases h1 : (cs.takeWhile protoChar).isEmpty
  · rw [if_pos h1, if_pos h1]
  · rw [if_neg h1, if_neg h1]
    have hcolon : ((cs.dropWhile protoChar).map lowerChar).take 1 = [':']
        ↔ (cs.dropWhile protoChar).take 1 = [':'] := by
      rw [← List.map_take]
      generalize (cs.dropWhile protoChar).take 1 = t
      rcases t with - | ⟨a, t'⟩ <;>
        simp [lowerChar_eq_iff_of_fixed (show (':' : Char).toNat < 65 by decide)]
    by_cases h2 : (cs.dropWhile protoChar).take 1 = [':']
    · rw [if_pos (hcolon.2 h2), if_pos h2]
      rw [List.map_map,
        show lowerChar ∘ lowerChar = lowerChar from funext lowerChar_idem]
      rw [← List.map_drop, parseTail_lower]
    · rw [if_neg (fun hh => h2 (hcolon.1 hh)), if_neg h2]

end ParserLemmas

section BytesOrder

theorem bytesLe_refl (l : List Nat) : bytesLe l l = true := by
  induction l with
  | nil => rfl
  | cons a as ih => simp [bytesLe, ih]

theorem bytesLe_append_right (l t : List Nat) : bytesLe l (l ++ t) = true := by
  induction l with
  | nil => rfl
  | cons a as ih => simp [bytesLe, ih]

theorem bytesLe_append_left_mono {a b : List Nat} (o : List Nat)
    (h : bytesLe a b = true) : bytesLe (o ++ a) (o ++ b) = true := by
  induction o with
  | nil => exact h
  | cons x xs ih => simp [bytesLe, ih]

/-- Core range-exclusion argument: if every byte of two distinct origin
keys is at least `2`, then no key formed from the second origin followed
by nothing or by `0x00 0x01`-plus-anything can lie inside the inclusive
range from the first origin to the first origin followed by `0x01`. -/
theorem bytesLe_exclusion (t : List Nat)
    (ht : t = [] ∨ ∃ kb, t = 0 :: 1 :: kb) :
    ∀ o1 o2 : List Nat, (∀ b ∈ o1, 2 ≤ b) → (∀ b ∈ o2, 2 ≤ b) → o1 ≠ o2 →
      ¬(bytesLe o1 (o2 ++ t) = true ∧ bytesLe (o2 ++ t) (o1 ++ [1]) = true) := by
  intro o1
  induction o1 with
  | nil =>
    intro o2 h1 h2 hne
    cases o2 with
    | nil => exact absurd rfl hne
    | cons b bs =>
      rintro ⟨-, hle2⟩
      have hb := h2 b (by simp)
      simp only [List.cons_append, List.nil_append, bytesLe] at hle2
      rw [if_neg (by omega), if_pos (by omega)] at hle2
      exact absurd hle2 (by simp)
  | cons a as ih =>
    intro o2 h1 h2 hne
    have ha := h1 a (by simp)
    cases o2 with
    | nil =>
      rintro ⟨hle1, -⟩
      rcases ht with rfl | ⟨kb, rfl⟩
      · simp [bytesLe] at hle1
      · simp only [List.nil_append, bytesLe] at hle1
        rw [if_neg (by omega), if_pos (by omega)] at hle1
        exact absurd hle1 (by simp)
    | cons b bs =>
      rintro ⟨hle1, hle2⟩
      have hb := h2 b (by simp)
      by_cases hab : a = b
      · subst hab
        have hle1' : bytesLe as (bs ++ t) = true := by
          simp only [List.cons_append, bytesLe] at hle1
          rwa [if_neg (by omega), if_neg (by omega)] at hle1
        have hle2' : bytesLe (bs ++ t) (as ++ [1]) = true := by
          simp only [List.cons_append, bytesLe] at hle2
          rwa [if_neg (by omega), if_neg (by omega)] at hle2
        exact ih bs (fun x hx => h1 x (by simp [hx]))
          (fun x hx => h2 x (by simp [hx]))
          (fun hh => hne (by rw [hh])) ⟨hle1', hle2'⟩
      · have hab1 : a ≤ b := by
          simp only [List.cons_append, bytesLe] at hle1
          by_cases h : a < b
          · omega
          · rw [if_neg h] at hle1
            by_cases h' : b < a
            · rw [if_pos h'] at hle1
              exact absurd hle1 (by simp)
            · omega
        have hab2 : b ≤ a := by
          simp only [List.cons_append, bytesLe] at hle2
          by_cases h : b < a
          · omega
          · rw [if_neg h] at hle2
            by_cases h' : a < b
            · rw [if_pos h'] at hle2
              exact absurd hle2 (by simp)
            · omega
        omega

end BytesOrder

section SplitLemmas

/-- Whether `x` immediately followed by `y` occurs in a list: the
generic substring test for a two-element pattern. -/
def hasAdjPair {α : Type} [DecidableEq α] (x y : α) : List α → Bool
  | a :: rest =>
    match rest with
    | b :: _ => (decide (a = x) && decide (b = y)) || hasAdjPair x y rest
    | [] => false
  | [] => false

theorem hasAdjPair_tail {α : Type} [DecidableEq α] {x y : α} {l : List α}
    (h : hasAdjPair x y l = false) : hasAdjPair x y l.tail = false := by
  cases l with
  | nil => exact h
  | cons a rest =>
    cases rest with
    | nil => rfl
    | cons b r =>
      simp only [hasAdjPair, Bool.or_eq_false_iff] at h
      exact h.2

theorem hasAdjPair_drop {α : Type} [DecidableEq α] {x y : α} {l : List α}
    (h : hasAdjPair x y l = false) (k : Nat) :
    hasAdjPair x y (l.drop k) = false := by
  induction k generalizing l with
  | zero => exact h
  | succ k ih =>
    rw [← List.drop_tail]
    exact ih (hasAdjPair_tail h)

theorem hasAdjPair_of_no_first {α : Type} [DecidableEq α] {x y : α} {l : List α}
    (h : ∀ c ∈ l, c ≠ x) : hasAdjPair x y l = false := by
  induction l with
  | nil => rfl
  | cons a rest ih =>
    cases rest with
    | nil => rfl
    | cons b r =>
      simp only [hasAdjPair, Bool.or_eq_false_iff]
      constructor
      · simp [h a (by simp)]
      · exact ih fun c hc => h c (by simp [hc])

theorem split2_no_sep {c0 c1 : Char} {l : List Char}
    (h : hasAdjPair c0 c1 l = false) : split2 c0 c1 l = [l] := by
  induction l with
  | nil => rfl
  | cons a rest ih =>
    cases rest with
    | nil => rfl
    | cons b r =>
      simp only [hasAdjPair, Bool.or_eq_false_iff] at h
      have hne : ¬(a = c0 ∧ b = c1) := by
        intro ⟨h1, h2⟩
        subst h1
        subst h2
        simp at h
      rw [split2, if_neg hne, ih h.2]

theorem split2_boundary {c0 c1 : Char} {a : List Char} (b : List Char)
    (ha : ∀ c ∈ a, c ≠ c0) :
    split2 c0 c1 (a ++ c0 :: c1 :: b) = a :: split2 c0 c1 b := by
  induction a with
  | nil => simp [split2]
  | cons x a' ih =>
    have hx : x ≠ c0 := ha x (by simp)
    have ih' := ih fun c hc => ha c (by simp [hc])
    cases a' with
    | nil =>
      simp only [List.nil_append] at ih' ⊢
      rw [List.cons_append, List.nil_append, split2, if_neg (by tauto), ih']
    | cons y a'' =>
      rw [List.cons_append, List.cons_append, split2, if_neg (by tauto)]
      rw [show y :: (a'' ++ c0 :: c1 :: b) = (y :: a'') ++ c0 :: c1 :: b from rfl,
        ih']

theorem repl_toNat : repl.toNat = 0xFFFD :=
  toNat_ofNat_valid (Or.inr ⟨by norm_num, by norm_num⟩)

theorem utf8Decode_ascii_cons {m : Nat} (rest : List Nat) (h : m < 128) :
    utf8Decode (m :: rest) = Char.ofNat m :: utf8Decode rest := by
  have hstep : utf8DecodeStep (m :: rest) = some (Char.ofNat m, 1) := by
    simp only [utf8DecodeStep, if_pos h]
  rw [utf8Decode_step_some hstep]
  rfl

/-- A decoded scalar below `U+0080` can only come from the identical
single byte at the head of the input: every multi-byte branch of
`utf8DecodeStep` that passes its range checks produces a scalar of at
least `0x80`, and the replacement character is far above it. -/
theorem utf8DecodeStep_low {l : List Nat} {c : Char} {k : Nat}
    (hs : utf8DecodeStep l = some (c, k)) (hc : c.toNat < 128) :
    ∃ rest, l = c.toNat :: rest ∧ k = 1 := by
  match l with
  | [] => exact absurd hs (by simp [utf8DecodeStep])
  | b :: rest =>
    have replCase : ∀ k', repl = c ∧ k' = k → False := by
      rintro k' ⟨hceq, -⟩
      rw [← hceq, repl_toNat] at hc
      exact absurd hc (by norm_num)
    simp only [utf8DecodeStep] at hs
    split at hs
    · next h1 =>
      obtain ⟨hceq, hkeq⟩ : Char.ofNat b = c ∧ 1 = k := by simpa using hs
      refine ⟨rest, ?_, hkeq.symm⟩
      rw [← hceq, toNat_ofNat_valid (Or.inl (by omega))]
    · next h1 =>
      split at hs
      · exact absurd (replCase 1 (by simpa using hs)) not_false
      · next h2 =>
        split at hs
        · next h3 =>
          split at hs
          · next b2 tail =>
            split at hs
            · next hcont =>
              obtain ⟨hceq, -⟩ :
                  Char.ofNat ((b - 0xC0) * 64 + (b2 - 0x80)) = c ∧ 2 = k := by
                simpa using hs
              simp only [contByte, decide_eq_true_eq] at hcont
              rw [← hceq, toNat_ofNat_valid (Or.inl (by omega))] at hc
              omega
            · exact absurd (replCase 1 (by simpa using hs)) not_false
          · exact absurd (replCase 1 (by simpa using hs)) not_false
        · next h3 =>
          split at hs
          · next h4 =>
            split at hs
            · next b2 b3 tail =>
              split at hs
              · next hcont =>
                rw [Bool.and_eq_true] at hcont
                obtain ⟨hc3, hcb3⟩ := hcont
                simp only [contByte, decide_eq_true_eq] at hcb3
                obtain ⟨hceq, -⟩ :
                    Char.ofNat ((b - 0xE0) * 4096 + (b2 - 0x80) * 64
                      + (b3 - 0x80)) = c ∧ 3 = k := by
                  simpa using hs
                simp only [cont3Ok] at hc3
                split at hc3
                · next he =>
                  simp only [decide_eq_true_eq] at hc3
                  rw [← hceq, toNat_ofNat_valid (Or.inl (by omega))] at hc
                  omega
                · split at hc3
                  · next hne he =>
                    simp only [decide_eq_true_eq] at hc3
                    rw [← hceq, toNat_ofNat_valid (Or.inl (by omega))] at hc
                    omega
                  · next hne hne2 =>
                    simp only [contByte, decide_eq_true_eq] at hc3
                    rcases Nat.lt_or_ge b 238 with hb | hb
                    · rw [← hceq, toNat_ofNat_valid (Or.inl (by omega))] at hc
                      omega
                    · rw [← hceq,
                        toNat_ofNat_valid (Or.inr ⟨by omega, by omega⟩)] at hc
                      omega
              · exact absurd (replCase 1 (by simpa using hs)) not_false
            · exact absurd (replCase 1 (by simpa using hs)) not_false
          · next h4 =>
            split at hs
            · next h5 =>
              split at hs
              · next b2 b3 b4 tail =>
                split at hs
                · next hcont =>
                  rw [Bool.and_eq_true, Bool.and_eq_true] at hcont
                  obtain ⟨⟨hc4, hcb3⟩, hcb4⟩ := hcont
                  simp only [contByte, decide_eq_true_eq] at hcb3 hcb4
                  obtain ⟨hceq, -⟩ :
                      Char.ofNat ((b - 0xF0) * 262144 + (b2 - 0x80) * 4096
                        + (b3 - 0x80) * 64 + (b4 - 0x80)) = c ∧ 4 = k := by
                    simpa using hs
                  simp only [cont4Ok] at hc4
                  split at hc4
                  · next he =>
                    simp only [decide_eq_true_eq] at hc4
                    rw [← hceq,
                      toNat_ofNat_valid (Or.inr ⟨by omega, by omega⟩)] at hc
                    omega
                  · split at hc4
                    · next hne he =>
                      simp only [decide_eq_true_eq] at hc4
                      rw [← hceq,
                        toNat_ofNat_valid (Or.inr ⟨by omega, by omega⟩)] at hc
                      omega
                    · next hne hne2 =>
                      simp only [contByte, decide_eq_true_eq] at hc4
                      rw [← hceq,
                        toNat_ofNat_valid (Or.inr ⟨by omega, by omega⟩)] at hc
                      omega
                · exact absurd (replCase 1 (by simpa using hs)) not_false
              · exact absurd (replCase 1 (by simpa using hs)) not_false
            · exact absurd (replCase 1 (by simpa using hs)) not_false

theorem utf8Decode_cons_suffix {l : List Nat} {c : Char} {cs : List Char}
    (hd : utf8Decode l = c :: cs) :
    ∃ k, 1 ≤ k ∧ utf8DecodeStep l = some (c, k) ∧ cs = utf8Decode (l.drop k) := by
  cases hs : utf8DecodeStep l with
  | none =>
    rw [utf8Decode_step_none hs] at hd
    exact absurd hd (by simp)
  | some ck =>
    obtain ⟨c', k⟩ := ck
    rw [utf8Decode_step_some hs] at hd
    injection hd with h1 h2
    subst h1
    exact ⟨k, (utf8DecodeStep_pos hs).1, rfl, h2.symm⟩

/-- If a byte sequence never contains `0x00` immediately followed by
`0x01`, its lenient UTF-8 decoding never contains `U+0000` immediately
followed by `U+0001`: the two control scalars decode only from the
corresponding single bytes. -/
theorem utf8Decode_no_sep : ∀ (n : Nat) (l : List Nat), l.length ≤ n →
    hasAdjPair 0 1 l = false →
    hasAdjPair '\u0000' '\u0001' (utf8Decode l) = false := by
  intro n
  induction n with
  | zero =>
    intro l hl _
    have hnil : l = [] := List.eq_nil_of_length_eq_zero (Nat.le_zero.1 hl)
    subst hnil
    rw [utf8Decode_nil]
    rfl
  | succ n ihn =>
    intro l hl hb
    rcases hdec : utf8Decode l with - | ⟨c, cs⟩
    · rfl
    · obtain ⟨k, hk1, hstep, hcs⟩ := utf8Decode_cons_suffix hdec
      have hlpos : l ≠ [] := (utf8DecodeStep_pos hstep).2
      have hlen : (l.drop k).length ≤ n := by
        have h1 : 1 ≤ l.length := by
          cases l with
          | nil => exact absurd rfl hlpos
          | cons x xs => simp
        rw [List.length_drop]
        omega
      have hcs_no : hasAdjPair '\u0000' '\u0001' cs = false := by
        rw [hcs]
        exact ihn _ hlen (hasAdjPair_drop hb k)
      cases cs with
      | nil => rfl
      | cons c2 cs' =>
        simp only [hasAdjPair, Bool.or_eq_false_iff]
        refine ⟨?_, hcs_no⟩
        by_cases hc0 : c = '\u0000'
        · by_cases hc2 : c2 = '\u0001'
          · exfalso
            obtain ⟨rest1, hl1, hkeq⟩ :=
              utf8DecodeStep_low hstep (by rw [hc0]; decide)
            subst hkeq
            rw [hl1] at hcs
            simp only [List.drop_succ_cons, List.drop_zero] at hcs
            obtain ⟨k2, hk21, hstep2, -⟩ := utf8Decode_cons_suffix hcs.symm
            obtain ⟨rest2, hl2, -⟩ :=
              utf8DecodeStep_low hstep2 (by rw [hc2]; decide)
            rw [hl2] at hl1
            rw [hl1, hc0, hc2] at hb
            simp [hasAdjPair] at hb
          · simp [hc2]
        · simp [hc0]

theorem decodeStoredKey_of_no_sep {raw : List Nat}
    (h : hasAdjPair 0 1 raw = false) : decodeStoredKey raw = none := by
  unfold decodeStoredKey
  rw [split2_no_sep (utf8Decode_no_sep raw.length raw le_rfl h)]
  rfl

theorem decodeStoredKey_entry {origin k : List Char}
    (ho : ∀ c ∈ origin, c ≠ '\u0000')
    (hk : hasAdjPair '\u0000' '\u0001' k = false) :
    decodeStoredKey (strBytes (origin ++ '\u0000' :: '\u0001' :: k))
      = some (String.mk k) := by
  unfold decodeStoredKey
  rw [utf8Decode_strBytes, split2_boundary k ho, split2_no_sep hk]
  rfl

end SplitLemmas

section KeyLemmas

theorem keyFromUrl_ok_shape {url : String} {key : Option String} {sep : String}
    {bs : List Nat} (h : keyFromUrl url key sep = .ok bs) :
    ∃ p host, parseUrlChars url.data = (p, some host) ∧ host ≠ [] ∧
      bs = strBytes ('_' :: p.getD httpsProto ++ '/' :: '/' :: host
        ++ keySuffix key sep) := by
  simp only [keyFromUrl] at h
  split at h
  · exact absurd h (by simp)
  · next host heq =>
    split at h
    · exact absurd h (by simp)
    · next hne =>
      have hb : strBytes ('_' :: (parseUrlChars url.data).1.getD httpsProto
          ++ '/' :: '/' :: host ++ keySuffix key sep) = bs := by
        simpa using h
      refine ⟨(parseUrlChars url.data).1, host, ?_,
        by simpa [List.isEmpty_iff] using hne, hb.symm⟩
      rw [← heq]

theorem keyFromUrl_ok_of_parse {url : String} {p : Option (List Char)}
    {host : List Char} (key : Option String) (sep : String)
    (hp : parseUrlChars url.data = (p, some host)) (hne : host ≠ []) :
    keyFromUrl url key sep = .ok (strBytes ('_' :: p.getD httpsProto
      ++ '/' :: '/' :: host ++ keySuffix key sep)) := by
  simp only [keyFromUrl, hp]
  rw [if_neg (by simpa [List.isEmpty_iff] using hne)]

theorem keyFromUrl_error_iff (url : String) (key : Option String) (sep : String) :
    keyFromUrl url key sep = .error .invalidInput
      ↔ ((parseUrlChars url.data).2.getD []).isEmpty = true := by
  simp only [keyFromUrl]
  constructor
  · intro h
    split at h
    · next heq => rw [heq]; rfl
    · next host heq =>
      split at h
      · next he => rw [heq]; simpa using he
      · exact absurd h (by simp)
  · intro h
    split
    · rfl
    · next host heq =>
      rw [heq] at h
      rw [if_pos (by simpa using h)]

theorem append_colon_inj : ∀ {s1 s2 t1 t2 : List Char},
    (∀ c ∈ s1, c ≠ ':') → (∀ c ∈ s2, c ≠ ':') →
    s1 ++ ':' :: t1 = s2 ++ ':' :: t2 → s1 = s2 ∧ t1 = t2 := by
  intro s1
  induction s1 with
  | nil =>
    intro s2 t1 t2 h1 h2 he
    cases s2 with
    | nil => simpa using he
    | cons y s2' =>
      rw [List.nil_append, List.cons_append] at he
      injection he with he1 he2
      exact absurd he1.symm (h2 y (by simp))
  | cons x s1' ih =>
    intro s2 t1 t2 h1 h2 he
    cases s2 with
    | nil =>
      rw [List.nil_append, List.cons_append] at he
      injection he with he1 he2
      exact absurd he1 (h1 x (by simp))
    | cons y s2' =>
      rw [List.cons_append, List.cons_append] at he
      injection he with he1 he2
      obtain ⟨hs, hts⟩ := ih (fun c hc => h1 c (by simp [hc]))
        (fun c hc => h2 c (by simp [hc])) he2
      exact ⟨by rw [he1, hs], hts⟩

/-- Shape of a protocol value used by `keyFromUrl`: either the parsed
protocol or the `https:` default — in both cases a run of colon-free
scheme characters followed by a single colon. -/
theorem proto_getD_shape {cs : List Char} {p : Option (List Char)}
    {host : List Char} (hp : parseUrlChars cs = (p, some host)) :
    ∃ s, p.getD httpsProto = s ++ [':'] ∧ ∀ c ∈ s, protoChar c = true := by
  obtain ⟨pl, rfl⟩ := parseUrl_proto_of_host hp
  exact parseUrl_proto_shape hp

theorem origin_chars_bound {p host : List Char}
    (hp : ∃ s, p = s ++ [':'] ∧ ∀ c ∈ s, protoChar c = true)
    (hh : ∀ c ∈ host, hostChar c = true) :
    ∀ c ∈ ('_' :: p ++ '/' :: '/' :: host), 2 ≤ c.toNat ∧ c.toNat < 128 := by
  obtain ⟨s, rfl, hs⟩ := hp
  intro c hc
  simp only [List.mem_cons, List.mem_append, List.mem_singleton] at hc
  rcases hc with (rfl | hc | rfl | hf) | rfl | rfl | hc
  · constructor <;> decide
  · exact protoChar_toNat (hs c hc)
  · constructor <;> decide
  · exact absurd hf (List.not_mem_nil c)
  · constructor <;> decide
  · constructor <;> decide
  · exact hostChar_toNat (hh c hc)

theorem map_toNat_inj : ∀ {l1 l2 : List Char},
    l1.map Char.toNat = l2.map Char.toNat → l1 = l2 := by
  intro l1
  induction l1 with
  | nil =>
    intro l2 h
    cases l2 with
    | nil => rfl
    | cons y ys => simp at h
  | cons x xs ih =>
    intro l2 h
    cases l2 with
    | nil => simp at h
    | cons y ys =>
      simp only [List.map_cons, List.cons.injEq] at h
      rw [char_eq_of_toNat_eq h.1, ih h.2]

theorem strBytes_inj_ascii {l1 l2 : List Char}
    (ha1 : ∀ c ∈ l1, c.toNat < 128) (ha2 : ∀ c ∈ l2, c.toNat < 128)
    (h : strBytes l1 = strBytes l2) : l1 = l2 := by
  rw [strBytes_ascii ha1, strBytes_ascii ha2] at h
  exact map_toNat_inj h

/-- Distinct `(protocol, host)` pairs give distinct origin character
sequences: the embedded colon after the colon-free scheme makes the
concatenation invertible. -/
theorem origin_inj {p1 p2 h1 h2 : List Char}
    (hp1 : ∃ s, p1 = s ++ [':'] ∧ ∀ c ∈ s, protoChar c = true)
    (hp2 : ∃ s, p2 = s ++ [':'] ∧ ∀ c ∈ s, protoChar c = true)
    (hne : (p1, h1) ≠ (p2, h2)) :
    ('_' :: p1 ++ '/' :: '/' :: h1) ≠ ('_' :: p2 ++ '/' :: '/' :: h2) := by
  obtain ⟨s1, rfl, hs1⟩ := hp1
  obtain ⟨s2, rfl, hs2⟩ := hp2
  intro he
  injection he with h0 he2
  simp only [List.append_eq] at he2
  rw [List.append_assoc, List.append_assoc, List.singleton_append,
    List.singleton_append] at he2
  obtain ⟨hs, ht⟩ := append_colon_inj
    (fun c hc => protoChar_ne_colon (hs1 c hc))
    (fun c hc => protoChar_ne_colon (hs2 c hc)) he2
  injection ht with hd1 ht
  injection ht with hd2 ht
  exact hne (by rw [hs, ht])

theorem originPair_of_parse {url : String} {p : Option (List Char)}
    {host : List Char} (hp : parseUrlChars url.data = (p, some host))
    (hne : host ≠ []) :
    originPair url = some (p.getD httpsProto, host) := by
  simp only [originPair, hp]
  rw [if_neg (by simpa [List.isEmpty_iff] using hne)]

end KeyLemmas


section ClaimSupport

theorem strBytes_allGe2 {l : List Char}
    (h : ∀ c ∈ l, 2 ≤ c.toNat ∧ c.toNat < 128) :
    ∀ b ∈ strBytes l, 2 ≤ b := by
  rw [strBytes_ascii fun c hc => (h c hc).2]
  intro b hb
  rw [List.mem_map] at hb
  obtain ⟨c, hc, rfl⟩ := hb
  exact (h c hc).1

theorem strBytes_no_nul {l : List Char}
    (h : ∀ c ∈ l, 2 ≤ c.toNat ∧ c.toNat < 128) : ∀ c ∈ l, c ≠ '\u0000' := by
  intro c hc he
  have := (h c hc).1
  rw [he] at this
  exact absurd this (by decide)

theorem bytesLe_nul_head (x : List Nat) : bytesLe (0 :: x) [1] = true := by
  simp [bytesLe]

theorem keySuffix_none (sep : String) : keySuffix none sep = [] := rfl

theorem keySuffix_some_nonempty {k : String} (sep : String) (h : k.data ≠ []) :
    keySuffix (some k) sep = sep.data ++ k.data := by
  simp only [keySuffix]
  rw [if_neg (by simpa [List.isEmpty_iff] using h)]

theorem keySuffix_some_empty {k : String} (sep : String) (h : k.data = []) :
    keySuffix (some k) sep = [] := by
  simp only [keySuffix]
  rw [if_pos (by simpa [List.isEmpty_iff] using h)]

theorem keySuffix_soh : keySuffix (some sohStr) "" = ['\u0001'] := by
  rw [keySuffix_some_nonempty "" (by decide)]
  decide

theorem hostKeySeparator_data : hostKeySeparator.data = ['\u0000', '\u0001'] := by
  decide

theorem strBytes_soh : strBytes ['\u0001'] = [1] := by decide

theorem strBytes_sep_cons (k : List Char) :
    strBytes ('\u0000' :: '\u0001' :: k) = 0 :: 1 :: strBytes k := by
  rw [strBytes_cons, strBytes_cons,
    utf8Bytes_ascii (show ('\u0000' : Char).toNat < 128 by decide),
    utf8Bytes_ascii (show ('\u0001' : Char).toNat < 128 by decide)]
  rfl

end ClaimSupport

/-- C1: for a URL with a non-empty host, the scan bounds computed by
`readAll` — `lowerBound = keyFromUrl(url)` (the origin-only key) and
`upperBound = keyFromUrl(url, "\u0001", "")` (the origin bytes followed
by the single byte `0x01`) — contain, in lexicographic byte order, every
entry key `keyFromUrl(url, k)`, and exclude every entry key of a URL
with a distinct `(scheme, host)` origin. -/
theorem c1_scan_bounds (url url2 k k2 : String) (lo up ek ek2 : List Nat)
    (hlo : keyFromUrl url none hostKeySeparator = .ok lo)
    (hup : keyFromUrl url (some sohStr) "" = .ok up)
    (hek : keyFromUrl url (some k) hostKeySeparator = .ok ek)
    (hek2 : keyFromUrl url2 (some k2) hostKeySeparator = .ok ek2)
    (hne : originPair url ≠ originPair url2) :
    up = lo ++ [1] ∧ bytesLe lo ek = true ∧ bytesLe ek up = true ∧
      ¬(bytesLe lo ek2 = true ∧ bytesLe ek2 up = true) := by
  obtain ⟨p, host, hparse, hhost, hlo_eq⟩ := keyFromUrl_ok_shape hlo
  obtain ⟨p2, host2, hparse2, hhost2, hek2_eq⟩ := keyFromUrl_ok_shape hek2
  rw [keySuffix_none, List.append_nil] at hlo_eq
  -- the upper bound is the origin bytes followed by the single byte 1
  have hup_eq : up = lo ++ [1] := by
    have h2 := keyFromUrl_ok_of_parse (some sohStr) "" hparse hhost
    rw [hup] at h2
    rw [Except.ok.inj h2, keySuffix_soh, strBytes_append, strBytes_soh, hlo_eq]
  -- the entry key for this origin is the origin bytes plus the suffix
  have hek_eq : ek = strBytes ('_' :: p.getD httpsProto ++ '/' :: '/' :: host
      ++ keySuffix (some k) hostKeySeparator) := by
    have h3 := keyFromUrl_ok_of_parse (some k) hostKeySeparator hparse hhost
    rw [hek] at h3
    exact Except.ok.inj h3
  refine ⟨hup_eq, ?_, ?_, ?_⟩
  · -- lower bound ≤ entry key
    by_cases hkd : k.data = []
    · rw [hek_eq, keySuffix_some_empty hostKeySeparator hkd, List.append_nil,
        ← hlo_eq]
      exact bytesLe_refl lo
    · rw [hek_eq, keySuffix_some_nonempty hostKeySeparator hkd,
        strBytes_append, ← hlo_eq]
      exact bytesLe_append_right lo _
  · -- entry key ≤ upper bound
    by_cases hkd : k.data = []
    · rw [hek_eq, keySuffix_some_empty hostKeySeparator hkd, List.append_nil,
        ← hlo_eq, hup_eq]
      exact bytesLe_append_right lo [1]
    · rw [hek_eq, keySuffix_some_nonempty hostKeySeparator hkd,
        strBytes_append, ← hlo_eq, hup_eq, hostKeySeparator_data]
      rw [show ('\u0000' :: '\u0001' :: ([] : List Char)) ++ k.data
        = '\u0000' :: '\u0001' :: k.data from rfl]
      rw [strBytes_sep_cons]
      exact bytesLe_append_left_mono lo (bytesLe_nul_head _)
  · -- a distinct origin lies strictly outside the bounds
    have hsh1 := proto_getD_shape hparse
    have hsh2 := proto_getD_shape hparse2
    have hcb1 := origin_chars_bound hsh1 (parseUrl_host_chars hparse)
    have hcb2 := origin_chars_bound hsh2 (parseUrl_host_chars hparse2)
    have hb1 : ∀ b ∈ strBytes ('_' :: p.getD httpsProto ++ '/' :: '/' :: host),
        2 ≤ b := strBytes_allGe2 hcb1
    have hb2 : ∀ b ∈ strBytes ('_' :: p2.getD httpsProto ++ '/' :: '/' :: host2),
        2 ≤ b := strBytes_allGe2 hcb2
    have hpair_ne : (p.getD httpsProto, host) ≠ (p2.getD httpsProto, host2) := by
      intro hpair
      exact hne (by
        rw [originPair_of_parse hparse hhost, originPair_of_parse hparse2 hhost2,
          hpair])
    have hchars_ne : ('_' :: p.getD httpsProto ++ '/' :: '/' :: host)
        ≠ ('_' :: p2.getD httpsProto ++ '/' :: '/' :: host2) :=
      origin_inj hsh1 hsh2 hpair_ne
    have hbytes_ne : strBytes ('_' :: p.getD httpsProto ++ '/' :: '/' :: host)
        ≠ strBytes ('_' :: p2.getD httpsProto ++ '/' :: '/' :: host2) := by
      intro hb
      exact hchars_ne (strBytes_inj_ascii (fun c hc => (hcb1 c hc).2)
        (fun c hc => (hcb2 c hc).2) hb)
    by_cases hkd2 : k2.data = []
    · rw [hek2_eq, keySuffix_some_empty hostKeySeparator hkd2, List.append_nil]
      have hexcl := bytesLe_exclusion [] (Or.inl rfl) _ _ hb1 hb2 hbytes_ne
      rw [List.append_nil] at hexcl
      rw [hlo_eq, hup_eq, hlo_eq]
      exact hexcl
    · rw [hek2_eq, keySuffix_some_nonempty hostKeySeparator hkd2,
        strBytes_append, hostKeySeparator_data]
      rw [show ('\u0000' :: '\u0001' :: ([] : List Char)) ++ k2.data
        = '\u0000' :: '\u0001' :: k2.data from rfl]
      rw [strBytes_sep_cons]
      have hexcl := bytesLe_exclusion (0 :: 1 :: strBytes k2.data)
        (Or.inr ⟨strBytes k2.data, rfl⟩) _ _ hb1 hb2 hbytes_ne
      rw [hlo_eq, hup_eq, hlo_eq]
      exact hexcl

theorem c1_scan_bounds_witness :
    ([95, 104, 116, 116, 112, 115, 58, 47, 47, 97, 46, 99, 111, 109, 1] : List Nat)
        = [95, 104, 116, 116, 112, 115, 58, 47, 47, 97, 46, 99, 111, 109] ++ [1] ∧
      bytesLe [95, 104, 116, 116, 112, 115, 58, 47, 47, 97, 46, 99, 111, 109]
        [95, 104, 116, 116, 112, 115, 58, 47, 47, 97, 46, 99, 111, 109, 0, 1,
          116, 104, 101, 109, 101] = true ∧
      bytesLe [95, 104, 116, 116, 112, 115, 58, 47, 47, 97, 46, 99, 111, 109, 0,
          1, 116, 104, 101, 109, 101]
        [95, 104, 116, 116, 112, 115, 58, 47, 47, 97, 46, 99, 111, 109, 1] = true ∧
      ¬(bytesLe [95, 104, 116, 116, 112, 115, 58, 47, 47, 97, 46, 99, 111, 109]
          [95, 104, 116, 116, 112, 115, 58, 47, 47, 98, 46, 111, 114, 103, 0, 1,
            120] = true ∧
        bytesLe [95, 104, 116, 116, 112, 115, 58, 47, 47, 98, 46, 111, 114, 103,
            0, 1, 120]
          [95, 104, 116, 116, 112, 115, 58, 47, 47, 97, 46, 99, 111, 109, 1]
          = true) :=
  c1_scan_bounds "https://a.com" "https://b.org" "theme" "x"
    [95, 104, 116, 116, 112, 115, 58, 47, 47, 97, 46, 99, 111, 109]
    [95, 104, 116, 116, 112, 115, 58, 47, 47, 97, 46, 99, 111, 109, 1]
    [95, 104, 116, 116, 112, 115, 58, 47, 47, 97, 46, 99, 111, 109, 0, 1, 116,
      104, 101, 109, 101]
    [95, 104, 116, 116, 112, 115, 58, 47, 47, 98, 46, 111, 114, 103, 0, 1, 120]
    (by decide) (by decide) (by decide) (by decide) (by decide)

/-- C2 as stated is false: `decodeStoredKey` splits on every occurrence
of the separator, so an application key that itself contains the
separator is truncated at its first occurrence — the round trip returns
`"x"` for the key `"x\u0000\u0001y"`. -/
theorem c2_roundtrip_counterexample :
    keyFromUrl "https://a.com" (some "x\u0000\u0001y") hostKeySeparator
        = .ok [95, 104, 116, 116, 112, 115, 58, 47, 47, 97, 46, 99, 111, 109, 0,
          1, 120, 0, 1, 121] ∧
      decodeStoredKey [95, 104, 116, 116, 112, 115, 58, 47, 47, 97, 46, 99, 111,
          109, 0, 1, 120, 0, 1, 121] = some "x" ∧
      ("x" : String) ≠ "x\u0000\u0001y" := by
  refine ⟨by decide, by decide, by decide⟩

/-- C2 (amended): for every URL with a non-empty host and every
application key that is non-empty and does not contain the two-byte
separator, `decodeStoredKey` applied to the store key produced by
`keyFromUrl(url, k)` recovers exactly `k`. -/
theorem c2_roundtrip (url k : String) (ek : List Nat)
    (hek : keyFromUrl url (some k) hostKeySeparator = .ok ek)
    (hkne : k.data ≠ [])
    (hksep : hasAdjPair '\u0000' '\u0001' k.data = false) :
    decodeStoredKey ek = some k := by
  obtain ⟨p, host, hparse, hhost, hek_eq⟩ := keyFromUrl_ok_shape hek
  rw [keySuffix_some_nonempty _ hkne, hostKeySeparator_data,
    show (['\u0000', '\u0001'] : List Char) ++ k.data
      = '\u0000' :: '\u0001' :: k.data from rfl] at hek_eq
  have hchars := origin_chars_bound (proto_getD_shape hparse)
    (parseUrl_host_chars hparse)
  rw [hek_eq, decodeStoredKey_entry (strBytes_no_nul hchars) hksep]

theorem c2_roundtrip_witness :
    decodeStoredKey [95, 104, 116, 116, 112, 115, 58, 47, 47, 97, 46, 99, 111,
      109, 0, 1, 116, 104, 101, 109, 101] = some "theme" :=
  c2_roundtrip "https://a.com" "theme"
    [95, 104, 116, 116, 112, 115, 58, 47, 47, 97, 46, 99, 111, 109, 0, 1, 116,
      104, 101, 109, 101]
    (by decide) (by decide) (by decide)

/-- C3: key derivation fails with `InvalidInput` exactly when the URL
does not parse to a non-empty host (for any key argument, i.e. for both
`deriveOriginKey` and `deriveEntryKey`); otherwise the origin key is the
byte sequence `_<scheme>://<host>` with the scheme defaulting to
`https:` when the parse has none. -/
theorem c3_origin_key (url : String) (key : Option String) :
    (keyFromUrl url key hostKeySeparator = .error .invalidInput
        ↔ ((parseUrlChars url.data).2.getD []).isEmpty = true) ∧
      (∀ p host, parseUrlChars url.data = (p, some host) → host ≠ [] →
        keyFromUrl url none hostKeySeparator
          = .ok (strBytes ('_' :: p.getD httpsProto ++ '/' :: '/' :: host))) := by
  refine ⟨keyFromUrl_error_iff url key hostKeySeparator, ?_⟩
  intro p host hp hne
  rw [keyFromUrl_ok_of_parse none hostKeySeparator hp hne, keySuffix_none,
    List.append_nil]

theorem c3_origin_key_witness :
    (keyFromUrl "a.com" none hostKeySeparator = .error .invalidInput
        ↔ ((parseUrlChars "a.com".data).2.getD []).isEmpty = true)
      ∧ keyFromUrl "https://a.com" none hostKeySeparator
        = .ok (strBytes ('_' :: (some "https:".data).getD httpsProto
            ++ '/' :: '/' :: "a.com".data)) :=
  ⟨(c3_origin_key "a.com" none).1,
   (c3_origin_key "https://a.com" none).2 (some "https:".data) "a.com".data
     (by decide) (by decide)⟩

/-- C4: a point lookup whose derived entry key has no record in the
store fails with `NotFound` (in particular not `StoreUnavailable`);
when a record exists under exactly that key, `read` returns the stored
value with its one-byte framing marker stripped. -/
theorem c4_read (store : Store) (url key : String) (ek : List Nat)
    (hek : keyFromUrl url (some key) hostKeySeparator = .ok ek) :
    (dbGet store ek = none → read store url key = .error .notFound) ∧
      (∀ m rest, dbGet store ek = some (m :: rest) → m < 128 →
        read store url key = .ok (String.mk (utf8Decode rest))) := by
  constructor
  · intro hget
    simp only [read, hek, hget]
  · intro m rest hget hm
    simp only [read, hek, hget]
    rw [unpackValue, utf8Decode_ascii_cons rest hm]
    rfl

theorem c4_read_witness :
    read [([95, 104, 116, 116, 112, 115, 58, 47, 47, 97, 46, 99, 111, 109, 0, 1,
        116, 104, 101, 109, 101], [1, 100, 97, 114, 107])] "https://a.com"
        "theme" = .ok (String.mk (utf8Decode [100, 97, 114, 107])) ∧
      read [] "https://a.com" "theme" = .error .notFound :=
  ⟨(c4_read [([95, 104, 116, 116, 112, 115, 58, 47, 47, 97, 46, 99, 111, 109, 0,
      1, 116, 104, 101, 109, 101], [1, 100, 97, 114, 107])] "https://a.com"
      "theme"
      [95, 104, 116, 116, 112, 115, 58, 47, 47, 97, 46, 99, 111, 109, 0, 1, 116,
        104, 101, 109, 101] (by decide)).2 1 [100, 97, 114, 107] (by decide)
      (by decide),
   (c4_read [] "https://a.com" "theme"
      [95, 104, 116, 116, 112, 115, 58, 47, 47, 97, 46, 99, 111, 109, 0, 1, 116,
        104, 101, 109, 101] (by decide)).1 (by decide)⟩

/-- C5 as stated is false on two counts: on a zero-length raw value the
source returns the empty string and raises nothing, and the source
strips one *character* of the UTF-8 decoding rather than one byte — on
`[0xC3, 0xA9]` (the two-byte encoding of one character) it returns
`""`, while decoding the remainder after one byte would yield the
non-empty replacement text. -/
theorem c5_decode_value_counterexample :
    unpackValue [] = "" ∧ unpackValue [0xC3, 0xA9] = ""
      ∧ utf8Decode [0xA9] ≠ [] := by
  refine ⟨by decide, by decide, by decide⟩

/-- C5 (amended): `decodeValue` strips exactly one leading character of
the UTF-8 decoding — which is exactly one byte whenever the first byte
is ASCII, as the observed `0x01` marker is — and decodes the remainder
as text; applied to a zero-length raw value it returns the empty string
without error. -/
theorem c5_decode_value (b : Nat) (rest : List Nat) (hb : b < 128) :
    unpackValue (b :: rest) = String.mk (utf8Decode rest)
      ∧ unpackValue [] = "" := by
  constructor
  · rw [unpackValue, utf8Decode_ascii_cons rest hb]
    rfl
  · rfl

theorem c5_decode_value_witness :
    unpackValue (1 :: [100, 97, 114, 107])
        = String.mk (utf8Decode [100, 97, 114, 107])
      ∧ unpackValue [] = "" :=
  c5_decode_value 1 [100, 97, 114, 107] (by decide)

/-- C6 as stated is false: on a raw store key without the separator the
destructuring `const [ , actualKey ] = ...split(...)` silently produces
`undefined` (`none` in this embedding) — no `MalformedValue`-class
error is raised and the scan yields the record anyway. -/
theorem c6_missing_separator_counterexample :
    decodeStoredKey [95, 104, 116, 116, 112, 115, 58, 47, 47, 97, 46, 99, 111,
      109] = none := by
  decide

/-- C6 (amended): `decodeStoredKey` applied to any raw store key that
does not contain the two-byte separator `0x00 0x01` returns no
application key (`undefined`) rather than failing. -/
theorem c6_missing_separator (raw : List Nat)
    (h : hasAdjPair 0 1 raw = false) : decodeStoredKey raw = none :=
  decodeStoredKey_of_no_sep h

theorem c6_missing_separator_witness :
    decodeStoredKey [95, 104, 105] = none :=
  c6_missing_separator [95, 104, 105] (by decide)

/-- The release-and-surface events whose relative order C7 is about. -/
def releaseObs (e : Ev) : Bool :=
  e == Ev.iterEnd || e == Ev.dbClose || e == Ev.surface

theorem scanEvents_filter : ∀ (items : Nat) (consumed errAt : Option Nat),
    (scanEvents items consumed errAt).filter releaseObs
      = [Ev.iterEnd, Ev.dbClose, Ev.surface] := by
  intro items
  induction items with
  | zero =>
    intro consumed errAt
    simp only [scanEvents]
    split
    · rfl
    · split
      · rfl
      · rfl
  | succ n ih =>
    intro consumed errAt
    simp only [scanEvents]
    split
    · rfl
    · split
      · rfl
      · rw [List.filter_cons_of_neg (by decide),
          List.filter_cons_of_neg (by decide)]
        exact ih _ _

/-- C7: on every exit path of both operations the store handle is
released exactly once before the result or error is surfaced — and for
a scan the iterator is released exactly once, before the handle.  The
projection of each call trace onto the release/surface events is
exactly `[iterEnd, dbClose, surface]` (scan, when the handle was
acquired), `[dbClose, surface]` (point lookup, when the handle was
acquired), or `[surface]` (the handle was never acquired), for every
combination of open success, key validity, record count, early
abandonment point and mid-scan error point. -/
theorem c7_resource_release (openOk keyOk : Bool) (items : Nat)
    (consumed errAt : Option Nat) :
    (readTrace openOk keyOk).filter releaseObs
        = (if openOk then [Ev.dbClose, Ev.surface] else [Ev.surface]) ∧
      (readAllTrace keyOk openOk items consumed errAt).filter releaseObs
        = (if keyOk && openOk then [Ev.iterEnd, Ev.dbClose, Ev.surface]
           else [Ev.surface]) := by
  constructor
  · cases openOk <;> cases keyOk <;> rfl
  · cases keyOk with
    | false => rfl
    | true =>
      cases openOk with
      | false => rfl
      | true =>
        show List.filter releaseObs
            (Ev.dbOpen :: Ev.iterCreate :: scanEvents items consumed errAt)
          = [Ev.iterEnd, Ev.dbClose, Ev.surface]
        rw [List.filter_cons_of_neg (by decide),
          List.filter_cons_of_neg (by decide), scanEvents_filter]

/-- C8: the scan range is inclusive of its lower bound: a record stored
under exactly the origin-only key is yielded by `readAll` — with no
application-key component (the split finds no separator) and with its
value still decoded by stripping one character — rather than skipped or
turned into an error. -/
theorem c8_origin_only_record (url : String) (v lo : List Nat)
    (hlo : keyFromUrl url none hostKeySeparator = .ok lo) :
    readAll [(lo, v)] url = .ok [(none, unpackValue v)] := by
  obtain ⟨p, host, hparse, hhost, hlo_eq⟩ := keyFromUrl_ok_shape hlo
  rw [keySuffix_none, List.append_nil] at hlo_eq
  have hup := keyFromUrl_ok_of_parse (some sohStr) "" hparse hhost
  have hchars := origin_chars_bound (proto_getD_shape hparse)
    (parseUrl_host_chars hparse)
  simp only [readAll, hlo, hup]
  have hle1 : bytesLe lo lo = true := bytesLe_refl lo
  have hle2 : bytesLe lo (strBytes ('_' :: p.getD httpsProto ++ '/' :: '/'
      :: host ++ keySuffix (some sohStr) "")) = true := by
    rw [keySuffix_soh, strBytes_append, ← hlo_eq]
    exact bytesLe_append_right lo _
  have hdsk : decodeStoredKey lo = none := by
    rw [hlo_eq]
    apply decodeStoredKey_of_no_sep
    apply hasAdjPair_of_no_first
    intro b hb hb0
    have h2 := strBytes_allGe2 hchars b hb
    rw [hb0] at h2
    exact absurd h2 (by norm_num)
  rw [List.filter_cons_of_pos (by rw [hle1, hle2]; rfl)]
  simp only [List.filter_nil, List.map_cons, List.map_nil, hdsk]

theorem c8_origin_only_record_witness :
    readAll [([95, 104, 116, 116, 112, 115, 58, 47, 47, 97, 46, 99, 111, 109],
        [1, 120])] "https://a.com"
      = .ok [(none, unpackValue [1, 120])] :=
  c8_origin_only_record "https://a.com" [1, 120]
    [95, 104, 116, 116, 112, 115, 58, 47, 47, 97, 46, 99, 111, 109] (by decide)

/-- C9: an empty-string application key is treated the same as an
absent key: the derived store key is the origin-only key with no
separator appended, and `read(url, "")` performs its point lookup
against exactly that key. -/
theorem c9_empty_key (store : Store) (url : String) :
    keyFromUrl url (some "") hostKeySeparator
        = keyFromUrl url none hostKeySeparator ∧
      read store url "" =
        (match keyFromUrl url none hostKeySeparator with
         | .error e => .error e
         | .ok o =>
           match dbGet store o with
           | none => .error .notFound
           | some v => .ok (unpackValue v)) := by
  have hks : keySuffix (some "") hostKeySeparator
      = keySuffix none hostKeySeparator := by decide
  have h1 : keyFromUrl url (some "") hostKeySeparator
      = keyFromUrl url none hostKeySeparator := by
    simp only [keyFromUrl, hks]
  exact ⟨h1, by simp only [read, h1]⟩

/-- C10: two URLs that agree after ASCII lowercasing — in particular
two URLs differing only in the letter case of their scheme or host —
derive the identical store key, because the URL parse normalises the
scheme and host to lowercase before the key is assembled. -/
theorem c10_case_normalisation (u1 u2 : String) (key : Option String)
    (sep : String) (h : u1.data.map lowerChar = u2.data.map lowerChar) :
    keyFromUrl u1 key sep = keyFromUrl u2 key sep := by
  have hp : parseUrlChars u1.data = parseUrlChars u2.data := by
    rw [← parseUrl_lower u1.data, ← parseUrl_lower u2.data, h]
  simp only [keyFromUrl, hp]

theorem c10_case_normalisation_witness :
    keyFromUrl "HTTPS://EXAMPLE.COM" none hostKeySeparator
      = keyFromUrl "https://example.com" none hostKeySeparator :=
  c10_case_normalisation "HTTPS://EXAMPLE.COM" "https://example.com" none
    hostKeySeparator (by decide)

end Chromagnon
